import Mathlib

/-!
Shallow embedding of `src/ext/bg/js/deinflector.js` (classes `Deinflection`
and `Deinflector`).

Modelling conventions:
* JS strings are modelled as lists of characters (`JStr`); the source uses
  `String.prototype.endsWith`, modelled by `List.isSuffixOf`, and
  `s.slice(0, -n)`, modelled by `jsSliceNeg` (note the JS corner case
  `s.slice(0, -0) = ""`, because `-0 === 0`).
* The asynchronous definer (`definer(term)` returning a promise of a
  definition list) is modelled as `Definer : JStr → Except Unit (List Defn)`;
  a promise rejection is the `Except.error` case and propagates through the
  joined promises (`Promise.all`) as `DRes.failed`.
* The recursion of `Deinflection.deinflect` has no bound of its own in the
  source; the embedding takes an explicit fuel argument and returns
  `DRes.fuelOut` when the recursion does not complete within the bound, so a
  computation that the source never finishes is one that exhausts every fuel.
* The source pushes into `this.children` from promise continuation callbacks,
  so the order of the `children` array follows the real-time completion order
  of those promises.  The embedding takes a schedule
  `σ : List Deinflection → List Deinflection` that arranges the children a
  node collects; `σ = id` is the order in which the promises are created
  (the synthetic stop-child first, then the retained rule children in
  rule-table iteration order).
-/

/-- A JS string, as the list of its characters. -/
abbrev JStr := List Char

/-- A grammatical rule identifier tag (an opaque string in the source). -/
abbrev RuleId := String

/-- A dictionary definition as the engine sees it: the source only reads its
`rules` array of rule tags and otherwise passes the record through. -/
structure Defn where
  rules : List RuleId
deriving DecidableEq, Repr

/-- One entry of a reason in the rule table, `deinflector.js` fields
`kanaIn`, `kanaOut`, `rulesIn`, `rulesOut`. -/
structure Variant where
  kanaIn : JStr
  kanaOut : JStr
  rulesIn : List RuleId
  rulesOut : List RuleId

/-- The rule table: `for (const reason in reasons)` iterates the object keys
in insertion order, so the table is a list of (reason name, variants). -/
abbrev RuleTable := List (String × List Variant)

/-- The external definer collaborator; `Except.error` models a rejected
promise. -/
abbrev Definer := JStr → Except Unit (List Defn)

/-- The search-tree node, `class Deinflection` of `deinflector.js:20-27`. -/
structure Deinflection where
  term : JStr
  rules : List RuleId
  reason : String
  definitions : List Defn
  children : List Deinflection

/-- One result record as assembled by `Deinflection.gather`
(`deinflector.js:92-116`).  The base-case object carries no `source` field,
hence `source : Option JStr` with `none` meaning "absent". -/
structure DPath where
  root : JStr
  rules : List RuleId
  definitions : List Defn
  reasons : List String
  source : Option JStr
deriving DecidableEq, Repr

/-- Result of a fueled run: `fuelOut` if the recursion did not complete
within the fuel bound, `failed` if a definer rejection propagated, `ok`
otherwise. -/
inductive DRes (α : Type) where
  | fuelOut
  | failed
  | ok (a : α)
deriving DecidableEq, Repr

/-- Sequencing of fueled results (promise chaining: both fuel exhaustion and
rejection propagate). -/
def DRes.bind {α β : Type} : DRes α → (α → DRes β) → DRes β
  | .fuelOut, _ => .fuelOut
  | .failed, _ => .failed
  | .ok a, f => f a

@[simp] theorem DRes.bind_fuelOut {α β : Type} (f : α → DRes β) :
    DRes.bind .fuelOut f = .fuelOut := rfl

@[simp] theorem DRes.bind_failed {α β : Type} (f : α → DRes β) :
    DRes.bind .failed f = .failed := rfl

@[simp] theorem DRes.bind_ok {α β : Type} (a : α) (f : α → DRes β) :
    DRes.bind (.ok a) f = f a := rfl

/-- A completion schedule: how the pushes into `this.children` interleave. -/
abbrev Sched := List Deinflection → List Deinflection

/-- JS `s.slice(0, -n)`: drops the last `n` characters, except that for
`n = 0` the call is `s.slice(0, 0) = ""` since `-0 === 0` in JS. -/
def jsSliceNeg (s : JStr) (n : Nat) : JStr :=
  if n = 0 then [] else s.take (s.length - n)

/-- The `validate` closure of `deinflector.js:30-46`, restricted to what it
stores on `this.definitions`: with `entry` set, every returned definition is
kept; otherwise the source runs `for (const rule of this.rules)` outer and
`for (const definition of definitions)` inner, pushing each definition whose
`rules` array contains the current rule. -/
def validateDefs (entry : Bool) (rules : List RuleId) (definitions : List Defn) :
    List Defn :=
  if entry then
    definitions
  else
    rules.foldl (fun acc rule =>
      definitions.foldl (fun acc2 d =>
        if d.rules.contains rule then acc2 ++ [d] else acc2) acc) []

/-- The inner loop `for (const variant of reasons[reason])` of
`deinflector.js:56-84`: builds the retained rule children for one reason, in
variant order.  `rec` is the recursive call `child.deinflect(definer,
reasons)` at one less fuel (and `entry = false`). -/
def variantChildren (rec : JStr → List RuleId → String → DRes Deinflection)
    (entry : Bool) (term : JStr) (rules : List RuleId) (reason : String) :
    List Variant → DRes (List Deinflection)
  | [] => .ok []
  | v :: vs =>
    let allowed := entry || rules.any (fun r => v.rulesIn.contains r)
    if allowed && v.kanaIn.isSuffixOf term then
      let newTerm := jsSliceNeg term v.kanaIn.length ++ v.kanaOut
      if newTerm.length = 0 then
        variantChildren rec entry term rules reason vs
      else
        DRes.bind (rec newTerm v.rulesOut reason) fun child =>
        DRes.bind (variantChildren rec entry term rules reason vs) fun rest =>
        .ok (if child.children.length > 0 then child :: rest else rest)
    else
      variantChildren rec entry term rules reason vs

/-- The outer loop `for (const reason in reasons)` of `deinflector.js:55-85`,
collecting retained rule children in rule-table iteration order. -/
def ruleChildren (rec : JStr → List RuleId → String → DRes Deinflection)
    (entry : Bool) (term : JStr) (rules : List RuleId) :
    RuleTable → DRes (List Deinflection)
  | [] => .ok []
  | (reason, variants) :: rest =>
    DRes.bind (variantChildren rec entry term rules reason variants) fun ks =>
    DRes.bind (ruleChildren rec entry term rules rest) fun ks2 =>
    .ok (ks ++ ks2)

/-- `Deinflection.prototype.deinflect` (`deinflector.js:29-90`), fueled.  The
built node records what the source leaves in `this` once `Promise.all`
settles: `definitions` from `validate`, and `children` holding the synthetic
stop-child (`deinflector.js:49-52`, pushed with no look at `valid`) together
with every rule child whose recursive call reported `valid` — arranged by the
schedule `σ`.  The source method resolves to `this.children.length > 0`;
callers of the embedding read that from the returned node. -/
def Deinflection.deinflect (σ : Sched) (definer : Definer) (reasons : RuleTable) :
    Nat → Bool → JStr → List RuleId → String → DRes Deinflection
  | 0, _, _, _, _ => .fuelOut
  | Nat.succ fuel, entry, term, rules, reason =>
    match definer term with
    | .error _ => .failed
    | .ok defs =>
      DRes.bind
        (ruleChildren
          (fun t r rn => Deinflection.deinflect σ definer reasons fuel false t r rn)
          entry term rules reasons) fun ks =>
      .ok ⟨term, rules, reason, validateDefs entry rules defs,
           σ (⟨term, rules, "", [], []⟩ :: ks)⟩

/-- The per-path extension step of the `gather` loop body
(`deinflector.js:105-110`): concatenate the definitions of the current node
after the ones collected below, append the reason when non-empty, and
overwrite `source` with the current term. -/
def extendPath (term : JStr) (reason : String) (defs : List Defn) (p : DPath) :
    DPath :=
  ⟨p.root, p.rules, p.definitions ++ defs,
   if reason.length > 0 then p.reasons ++ [reason] else p.reasons,
   some term⟩

mutual

/-- `Deinflection.prototype.gather` (`deinflector.js:92-116`). -/
def Deinflection.gather : Deinflection → List DPath
  | ⟨term, rules, _, defs, []⟩ => [⟨term, rules, defs, [], none⟩]
  | ⟨term, _, reason, defs, c :: cs⟩ => gatherKids term reason defs (c :: cs)

/-- The `for (const child of this.children)` loop of `gather`. -/
def gatherKids (term : JStr) (reason : String) (defs : List Defn) :
    List Deinflection → List DPath
  | [] => []
  | c :: cs =>
    (Deinflection.gather c).map (extendPath term reason defs) ++
      gatherKids term reason defs cs

end

/-- `Deinflector.prototype.deinflect` (`deinflector.js:129-132`): build the
root node with `entry = true` (fresh `Deinflection(term)`, so empty rules and
reason), then `success ? node.gather() : []`. -/
def Deinflector.deinflect (σ : Sched) (definer : Definer) (reasons : RuleTable)
    (fuel : Nat) (term : JStr) : DRes (List DPath) :=
  DRes.bind (Deinflection.deinflect σ definer reasons fuel true term [] "") fun node =>
  .ok (if node.children.length > 0 then node.gather else [])

mutual

/-- All nodes of a search tree, the node itself included. -/
def nodesOf : Deinflection → List Deinflection
  | ⟨term, rules, reason, defs, cs⟩ =>
    ⟨term, rules, reason, defs, cs⟩ :: nodesOfList cs

/-- All nodes of a forest of search trees. -/
def nodesOfList : List Deinflection → List Deinflection
  | [] => []
  | c :: cs => nodesOf c ++ nodesOfList cs

end

/-! ### Concrete scenarios used by the claims -/

/-- The surface term of the concrete scenario, `"食べた"`. -/
def tabeta : JStr := ['食', 'べ', 'た']

/-- The dictionary headword of the concrete scenario, `"食べる"`. -/
def taberu : JStr := ['食', 'べ', 'る']

/-- The rule table of the concrete scenario:
`{"past": [{kanaIn:"た", kanaOut:"る", rulesIn:["v1"], rulesOut:["v1"]}]}`. -/
def pastTable : RuleTable := [("past", [⟨['た'], ['る'], ["v1"], ["v1"]⟩])]

/-- Definer of the concrete scenario: resolves with `[{rules:["v1"]}]` for
`食べる` and with `[]` for every other term, `食べた` included. -/
def tabeDefiner : Definer :=
  fun t => if t = taberu then .ok [⟨["v1"]⟩] else .ok []

/-- A definer that resolves with the empty definition list for every term. -/
def emptyDefiner : Definer := fun _ => .ok []

/-- A definer whose promise rejects for `食べる` — a term reached one rule
application deep in the search — and resolves with `[]` elsewhere. -/
def failDefiner : Definer := fun t => if t = taberu then .error () else .ok []

/-- A rule table with a growing rewrite: replace a trailing `a` by `aa`,
with `rulesOut` meeting `rulesIn`, so the rewritten term admits the same
variant again, forever. -/
def growTable : RuleTable := [("grow", [⟨['a'], ['a', 'a'], ["v1"], ["v1"]⟩])]

/-- The call terminates for some fuel bound (a fueled run that completes,
normally or with a definer failure, keeps completing with more fuel
supplied; a run that no fuel completes models a search that never
finishes). -/
def terminatesOn (σ : Sched) (definer : Definer) (table : RuleTable)
    (term : JStr) : Prop :=
  ∃ fuel, Deinflector.deinflect σ definer table fuel term ≠ .fuelOut

/-! ### Theorems for the claims -/

/-- C1: the claim says that with a definer resolving to `[]` for every term,
`Deinflector.deinflect` returns `[]`.  The code instead pushes the synthetic
stop-child without consulting the `valid` flag it binds
(`deinflector.js:49-52`), so the root is always viable and the call resolves
with the single stop path.  This theorem evaluates the embedded code at the
failing input (term `"x"`, empty rule table, all-empty definer). -/
theorem deinflect_empty_definer_stop_path :
    Deinflector.deinflect id emptyDefiner [] 1 ['x'] =
      .ok [⟨['x'], [], [], [], some ['x']⟩] ∧
    Deinflector.deinflect id emptyDefiner [] 1 ['x'] ≠ .ok [] := by
  exact ⟨rfl, by decide⟩

/-- C2: the claim says the `食べた` scenario yields exactly the one path
`{root: 食べる, reasons: ["past"], rules: ["v1"]}`.  The code also keeps the
unvalidated stop path for the surface term itself (the stop-child is pushed
with no look at `valid`, `deinflector.js:49-52`), so two paths come back.
This theorem evaluates the embedded code at the failing input. -/
theorem deinflect_tabeta_two_paths :
    Deinflector.deinflect id tabeDefiner pastTable 2 tabeta =
      .ok [⟨tabeta, [], [], [], some tabeta⟩,
           ⟨taberu, ["v1"], [⟨["v1"]⟩], ["past"], some tabeta⟩] ∧
    Deinflector.deinflect id tabeDefiner pastTable 2 tabeta ≠
      .ok [⟨taberu, ["v1"], [⟨["v1"]⟩], ["past"], some tabeta⟩] := by
  exact ⟨rfl, by decide⟩

/-- C3, counterexample: a run whose completions arrive in reverse order
(schedule `List.reverse`) materializes the same children in a different
order than the spawn-order run (schedule `id`), and the flattened output
differs — the output is not independent of completion order. -/
theorem deinflect_completion_order_changes_output :
    Deinflector.deinflect List.reverse tabeDefiner pastTable 2 tabeta ≠
      Deinflector.deinflect id tabeDefiner pastTable 2 tabeta := by
  decide

/-- C4, counterexample: when the definer rejects for `食べる`, a term one
rule application deep in the search, the rejection propagates through
`Promise.all` and the whole `deinflect` call rejects instead of resolving
normally; it is not treated as an empty definition list for that node. -/
theorem deinflect_definer_rejection_propagates :
    Deinflector.deinflect id failDefiner pastTable 2 tabeta = .failed := by
  decide

/-- C8, counterexample: `Deinflector.deinflect` builds the root node from
the caller-supplied term with no emptiness check (`deinflector.js:129-131`),
so a zero-length surface term produces a tree whose root (and its synthetic
stop-child) has a zero-length term. -/
theorem deinflect_empty_term_root_node :
    Deinflection.deinflect id emptyDefiner [] 1 true [] [] "" =
      .ok ⟨[], [], "", [], [⟨[], [], "", [], []⟩]⟩ ∧
    ¬ (∀ n ∈ nodesOf ⟨[], [], "", [], [⟨[], [], "", [], []⟩]⟩,
        0 < n.term.length) := by
  exact ⟨rfl, by decide⟩

/-- Helper for C5: at any fuel, a non-entry node whose term ends in `a`
never finishes exploring under `growTable` — the rewritten term again ends
in `a`, so the recursion renews itself and exhausts any bound. -/
theorem grow_nonentry_fuelOut (σ : Sched) :
    ∀ (fuel : Nat) (term : JStr) (reason : String), ['a'].isSuffixOf term = true →
    Deinflection.deinflect σ emptyDefiner growTable fuel false term ["v1"] reason =
      .fuelOut := by
  intro fuel
  induction fuel with
  | zero => intro term reason h; rfl
  | succ fuel ih =>
    intro term reason h
    have hsuf : ['a'].isSuffixOf (jsSliceNeg term 1 ++ ['a', 'a']) = true := by
      rw [List.isSuffixOf_iff_suffix]
      exact ⟨jsSliceNeg term 1 ++ ['a'], by simp⟩
    have hrec := ih _ "grow" hsuf
    simp only [growTable] at hrec
    simp only [Deinflection.deinflect, emptyDefiner, growTable, ruleChildren,
      variantChildren, h]
    simp [hrec]

/-- Helper for C5: the whole `deinflect` call on the growing table exhausts
every fuel bound, under every completion schedule. -/
theorem grow_root_fuelOut (σ : Sched) :
    ∀ (fuel : Nat),
    Deinflector.deinflect σ emptyDefiner growTable fuel ['a'] = .fuelOut := by
  intro fuel
  cases fuel with
  | zero => rfl
  | succ fuel =>
    have hsuf : ['a'].isSuffixOf (jsSliceNeg ['a'] 1 ++ ['a', 'a']) = true := by decide
    have hrec := grow_nonentry_fuelOut σ fuel _ "grow" hsuf
    simp only [growTable] at hrec
    simp only [Deinflector.deinflect, Deinflection.deinflect, emptyDefiner, growTable,
      ruleChildren, variantChildren]
    simp [hrec]

/-- C5, counterexample: on a rule table whose variant rewrites a trailing
`a` to `aa` (suffixOut longer than suffixIn, `rulesOut` meeting `rulesIn`),
the search from term `"a"` completes under no fuel bound: the code has no
recursion-depth or visited-term cap, so the claimed bounded-depth error
never happens — the call simply never finishes. -/
theorem deinflect_growing_table_diverges :
    ¬ terminatesOn id emptyDefiner growTable ['a'] := by
  rintro ⟨fuel, hne⟩
  exact hne (grow_root_fuelOut id fuel)

/-- C5, amended: the implementation imposes no recursion-depth or
visited-term cap; its only stop conditions are the non-empty-rewrite check
and rule admissibility, so on the growing rule table the search exhausts
every fuel bound (under every completion schedule) instead of reporting a
bounded-depth error. -/
theorem deinflect_growing_table_fuel_exhausted (σ : Sched) (fuel : Nat) :
    Deinflector.deinflect σ emptyDefiner growTable fuel ['a'] = .fuelOut :=
  grow_root_fuelOut σ fuel

/-- C4, amended: a definer rejection is not confined to the node that issued
the lookup — it propagates, and the overall call rejects.  Stated here for
the lookup of the surface term itself, which every call issues: if the
definer rejects there, the whole `deinflect` call rejects (with any fuel
that reaches the lookup, under any schedule). -/
theorem deinflect_rejects_when_definer_rejects (σ : Sched) (definer : Definer)
    (table : RuleTable) (fuel : Nat) (term : JStr) (e : Unit)
    (h : definer term = .error e) :
    Deinflector.deinflect σ definer table (fuel + 1) term = .failed := by
  simp only [Deinflector.deinflect, Deinflection.deinflect, h, DRes.bind_failed]

/-- C4, witness for the amended theorem at a concrete input: a definer that
rejects for `食べた` makes the call with term `食べた` reject. -/
theorem deinflect_rejects_when_definer_rejects_witness :
    Deinflector.deinflect id (fun _ => .error ()) pastTable 2 tabeta = .failed :=
  deinflect_rejects_when_definer_rejects id (fun _ => .error ()) pastTable 1
    tabeta () rfl

/-- Spec-side reformulation of the non-entry `validate` loops: the accepted
definitions, grouped rule by rule — for each rule of the node in order, all
returned definitions carrying that rule, in the order the definer returned
them. -/
def groupedByRule (definitions : List Defn) : List RuleId → List Defn
  | [] => []
  | r :: rs =>
    definitions.filter (fun d => d.rules.contains r) ++ groupedByRule definitions rs

/-- Helper: the inner `for (const definition of definitions)` loop appends
exactly the definitions passing the test, in order. -/
theorem inner_foldl_filter (p : Defn → Bool) (ds : List Defn) :
    ∀ acc, ds.foldl (fun acc2 d => if p d then acc2 ++ [d] else acc2) acc =
      acc ++ ds.filter p := by
  induction ds with
  | nil => simp
  | cons d ds ih =>
    intro acc
    by_cases h : p d = true
    · simp [h, ih, List.filter_cons]
    · simp only [Bool.not_eq_true] at h
      simp [h, ih, List.filter_cons]

/-- Helper: filtering with a predicate the counted element satisfies keeps
its multiplicity. -/
theorem count_filter_true {α : Type} [DecidableEq α] (p : α → Bool) (d : α)
    (hp : p d = true) :
    ∀ l : List α, (l.filter p).count d = l.count d := by
  intro l
  induction l with
  | nil => rfl
  | cons a as ih =>
    by_cases ha : p a = true
    · rw [List.filter_cons, if_pos ha, List.count_cons, List.count_cons, ih]
    · have ha2 : p a = false := by simpa using ha
      have hne : (a == d) = false := by
        by_cases hda : a = d
        · subst hda; rw [hp] at ha2; cases ha2
        · simp [hda]
      rw [List.filter_cons, if_neg (by rw [ha2]; simp), List.count_cons, hne, ih]
      simp

/-- Helper: the nested loops of the non-entry `validate` produce exactly the
rule-by-rule grouping. -/
theorem validateDefs_eq_grouped (rules : List RuleId) (ds : List Defn) :
    validateDefs false rules ds = groupedByRule ds rules := by
  have key : ∀ acc, rules.foldl (fun acc rule =>
      ds.foldl (fun acc2 d => if d.rules.contains rule then acc2 ++ [d] else acc2) acc)
        acc = acc ++ groupedByRule ds rules := by
    induction rules with
    | nil => simp [groupedByRule]
    | cons r rs ih =>
      intro acc
      rw [List.foldl_cons, inner_foldl_filter, ih]
      show _ = acc ++ (ds.filter (fun d => d.rules.contains r) ++ groupedByRule ds rs)
      rw [List.append_assoc]
  simpa [validateDefs] using key []

/-- Helper: multiplicity in the grouped list is (number of matching rules of
the node) times (multiplicity in the definer result). -/
theorem groupedByRule_count (ds : List Defn) (d : Defn) :
    ∀ rules : List RuleId,
    (groupedByRule ds rules).count d =
      (rules.filter (fun r => d.rules.contains r)).length * ds.count d := by
  intro rules
  induction rules with
  | nil => simp [groupedByRule]
  | cons r rs ih =>
    show ((ds.filter (fun d => d.rules.contains r)) ++ groupedByRule ds rs).count d = _
    rw [List.count_append, ih, List.filter_cons]
    by_cases h : d.rules.contains r = true
    · rw [if_pos h, count_filter_true (fun x => x.rules.contains r) d h,
        List.length_cons, Nat.succ_mul, Nat.add_comm]
    · simp only [Bool.not_eq_true] at h
      have hz : (ds.filter (fun x => x.rules.contains r)).count d = 0 := by
        rw [List.count_eq_zero]
        intro hmem
        rw [List.mem_filter] at hmem
        rw [hmem.2] at h
        cases h
      rw [if_neg (by rw [h]; simp), hz, Nat.zero_add]

/-- C10: non-root self-validation iterates the rules of the node in the
outer loop and the returned definitions in the inner loop, so the stored
list is grouped rule by rule (not in definer return order), and one
definition sharing `k` rules with the node is appended `k` times — its
multiplicity is `k` times its multiplicity in the definer result. -/
theorem validateDefs_grouped_multiplicity (rules : List RuleId) (ds : List Defn)
    (d : Defn) :
    validateDefs false rules ds = groupedByRule ds rules ∧
    (validateDefs false rules ds).count d =
      (rules.filter (fun r => d.rules.contains r)).length * ds.count d := by
  refine ⟨validateDefs_eq_grouped rules ds, ?_⟩
  rw [validateDefs_eq_grouped]
  exact groupedByRule_count ds d rules

/-- C6: for a two-level chain root → A (reason `r1`) → B (reason `r2`,
most-reduced term, closed by its synthetic stop-child), `gather` produces
the single reasons sequence `[r2, r1]`: the reason of the deepest
application comes first, reasons applied nearer the surface form after. -/
theorem gather_reasons_two_level
    (t0 t1 t2 : JStr) (ru0 ru1 ru2 : List RuleId)
    (d0 d1 d2 dL : List Defn) (r1 r2 : String)
    (h1 : 0 < r1.length) (h2 : 0 < r2.length) :
    (Deinflection.gather
      ⟨t0, ru0, "", d0,
        [⟨t1, ru1, r1, d1,
          [⟨t2, ru2, r2, d2, [⟨t2, ru2, "", dL, []⟩]⟩]⟩]⟩).map DPath.reasons =
      [[r2, r1]] := by
  simp [Deinflection.gather, gatherKids, extendPath, h1, h2]

/-- C6, witness: a concrete two-level chain (polite form of a past form)
gathers to the single reasons sequence `["past", "polite"]`. -/
theorem gather_reasons_two_level_witness :
    (Deinflection.gather
      ⟨tabeta, [], "", [],
        [⟨['食', 'べ'], ["v1"], "polite", [],
          [⟨taberu, ["v5"], "past", [⟨["v1"]⟩],
            [⟨taberu, ["v5"], "", [], []⟩]⟩]⟩]⟩).map DPath.reasons =
      [["past", "polite"]] :=
  gather_reasons_two_level tabeta ['食', 'べ'] taberu [] ["v1"] ["v5"]
    [] [] [⟨["v1"]⟩] [] "polite" "past" (by decide) (by decide)

/-- Helper: every path the `gather` loop assembles from a list of children
carries `source` equal to the term of the node running the loop. -/
theorem gatherKids_source (tm : JStr) (rn : String) (ds : List Defn) :
    ∀ (l : List Deinflection) (p : DPath), p ∈ gatherKids tm rn ds l →
      p.source = some tm := by
  intro l
  induction l with
  | nil => intro p hp; simp [gatherKids] at hp
  | cons c cs ih =>
    intro p hp
    simp only [gatherKids, List.mem_append, List.mem_map] at hp
    rcases hp with ⟨q, _, rfl⟩ | hp
    · rfl
    · exact ih p hp

/-- C9: every path a successful `deinflect` call returns has its `source`
field present and equal to the caller-supplied surface term: `gather`
overwrites `source` at every ancestor and the root — whose children array is
never empty, the stop-child being always pushed — writes last. -/
theorem deinflect_source_eq_input (σ : Sched) (definer : Definer)
    (table : RuleTable) (fuel : Nat) (term : JStr) (ps : List DPath)
    (h : Deinflector.deinflect σ definer table fuel term = .ok ps) :
    ∀ p ∈ ps, p.source = some term := by
  cases fuel with
  | zero => simp [Deinflector.deinflect, Deinflection.deinflect, DRes.bind] at h
  | succ fuel =>
    unfold Deinflector.deinflect at h
    unfold Deinflection.deinflect at h
    cases hd : definer term with
    | error e => rw [hd] at h; simp at h
    | ok defs =>
      rw [hd] at h
      cases hk : ruleChildren
          (fun t r rn => Deinflection.deinflect σ definer table fuel false t r rn)
          true term [] table with
      | fuelOut => rw [hk] at h; simp at h
      | failed => rw [hk] at h; simp at h
      | ok ks =>
        rw [hk] at h
        simp only [DRes.bind_ok, DRes.ok.injEq] at h
        subst h
        rcases hσl : σ (⟨term, [], "", [], []⟩ :: ks) with _ | ⟨c, cs⟩ <;>
          intro p hp
        · simp at hp
        · rw [if_pos (by simp)] at hp
          have hg : p ∈ gatherKids term "" (validateDefs true [] defs) (c :: cs) := by
            simpa [Deinflection.gather] using hp
          exact gatherKids_source _ _ _ _ p hg

/-- C9, witness: in the two-path output of the concrete scenario, the path
gathered through the rule child carries the surface term `食べた` as its
`source`, not the intermediate term `食べる`. -/
theorem deinflect_source_eq_input_witness :
    DPath.source ⟨taberu, ["v1"], [⟨["v1"]⟩], ["past"], some tabeta⟩ =
      some tabeta :=
  deinflect_source_eq_input id tabeDefiner pastTable 2 tabeta
    [⟨tabeta, [], [], [], some tabeta⟩,
     ⟨taberu, ["v1"], [⟨["v1"]⟩], ["past"], some tabeta⟩] rfl
    ⟨taberu, ["v1"], [⟨["v1"]⟩], ["past"], some tabeta⟩ (by decide)

/-- Helper: membership in the rule-grouped validated definitions means some
rule of the node occurs among the definition's tags. -/
theorem groupedByRule_mem (ds : List Defn) (d : Defn) :
    ∀ rules : List RuleId, d ∈ groupedByRule ds rules →
      ∃ r ∈ rules, d.rules.contains r = true := by
  intro rules
  induction rules with
  | nil => intro h; simp [groupedByRule] at h
  | cons r rs ih =>
    intro h
    rcases List.mem_append.1 h with hl | hr
    · exact ⟨r, List.mem_cons_self r rs, (List.mem_filter.1 hl).2⟩
    · rcases ih hr with ⟨r2, hr2, hc⟩
      exact ⟨r2, List.mem_cons_of_mem r hr2, hc⟩

/-- Helper: a node of a forest lies in one of its trees. -/
theorem nodesOfList_mem :
    ∀ (l : List Deinflection) (n : Deinflection), n ∈ nodesOfList l →
      ∃ c ∈ l, n ∈ nodesOf c := by
  intro l
  induction l with
  | nil => intro n h; simp [nodesOfList] at h
  | cons c cs ih =>
    intro n h
    rw [show nodesOfList (c :: cs) = nodesOf c ++ nodesOfList cs from rfl] at h
    rcases List.mem_append.1 h with hl | hr
    · exact ⟨c, List.mem_cons_self c cs, hl⟩
    · rcases ih n hr with ⟨c2, hc2, hn⟩
      exact ⟨c2, List.mem_cons_of_mem c hc2, hn⟩

/-- Helper: every child retained by the variant loop was produced by the
recursive call on a non-empty rewritten term, with the reason of the loop. -/
theorem variantChildren_mem (rec : JStr → List RuleId → String → DRes Deinflection)
    (entry : Bool) (term : JStr) (rules : List RuleId) (reason : String) :
    ∀ (vs : List Variant) (ks : List Deinflection),
      variantChildren rec entry term rules reason vs = .ok ks →
      ∀ k ∈ ks, ∃ t2 ru2, t2 ≠ [] ∧ rec t2 ru2 reason = .ok k := by
  intro vs
  induction vs with
  | nil =>
    intro ks h k hk
    simp only [variantChildren] at h
    cases h
    cases hk
  | cons v vs ih =>
    intro ks h k hk
    simp only [variantChildren] at h
    split at h
    · split at h
      · exact ih ks h k hk
      · rename_i hcond hlen
        cases hr : rec (jsSliceNeg term v.kanaIn.length ++ v.kanaOut) v.rulesOut reason with
        | fuelOut => rw [hr] at h; simp at h
        | failed => rw [hr] at h; simp at h
        | ok child =>
          rw [hr] at h
          cases hrest : variantChildren rec entry term rules reason vs with
          | fuelOut => rw [hrest] at h; simp at h
          | failed => rw [hrest] at h; simp at h
          | ok rest =>
            rw [hrest] at h
            simp only [DRes.bind_ok, DRes.ok.injEq] at h
            subst h
            have hne : jsSliceNeg term v.kanaIn.length ++ v.kanaOut ≠ [] := by
              intro hnil
              rw [hnil] at hlen
              simp at hlen
            split at hk
            · rcases List.mem_cons.1 hk with rfl | hkr
              · exact ⟨_, _, hne, hr⟩
              · exact ih rest hrest k hkr
            · exact ih rest hrest k hk
    · exact ih ks h k hk

/-- Helper: every child retained by the reason loop was produced by the
recursive call on a non-empty rewritten term. -/
theorem ruleChildren_mem (rec : JStr → List RuleId → String → DRes Deinflection)
    (entry : Bool) (term : JStr) (rules : List RuleId) :
    ∀ (table : RuleTable) (ks : List Deinflection),
      ruleChildren rec entry term rules table = .ok ks →
      ∀ k ∈ ks, ∃ t2 ru2 rn2, t2 ≠ [] ∧ rec t2 ru2 rn2 = .ok k := by
  intro table
  induction table with
  | nil =>
    intro ks h k hk
    simp only [ruleChildren] at h
    cases h
    cases hk
  | cons e rest ih =>
    intro ks h k hk
    simp only [ruleChildren] at h
    cases hv : variantChildren rec entry term rules e.1 e.2 with
    | fuelOut => rw [hv] at h; simp at h
    | failed => rw [hv] at h; simp at h
    | ok ks1 =>
      rw [hv] at h
      cases hrest : ruleChildren rec entry term rules rest with
      | fuelOut => rw [hrest] at h; simp at h
      | failed => rw [hrest] at h; simp at h
      | ok ks2 =>
        rw [hrest] at h
        simp only [DRes.bind_ok, DRes.ok.injEq] at h
        subst h
        rcases List.mem_append.1 hk with hl | hr
        · rcases variantChildren_mem rec entry term rules e.1 e.2 ks1 hv k hl with
            ⟨t2, ru2, hne, hrec⟩
          exact ⟨t2, ru2, e.1, hne, hrec⟩
        · exact ih ks2 hrest k hr

/-- Helper for C7: in every subtree explored with `entry = false`, every
stored definition carries a rule tag of its node. -/
theorem nonentry_nodes_defs (σ : Sched) (hσ : ∀ l, List.Perm (σ l) l)
    (definer : Definer) (table : RuleTable) :
    ∀ (fuel : Nat) (term : JStr) (rules : List RuleId) (reason : String)
      (t : Deinflection),
      Deinflection.deinflect σ definer table fuel false term rules reason = .ok t →
      ∀ n ∈ nodesOf t, ∀ d ∈ n.definitions,
        ∃ r ∈ n.rules, d.rules.contains r = true := by
  intro fuel
  induction fuel with
  | zero => intro term rules reason t h; cases h
  | succ fuel ih =>
    intro term rules reason t h
    unfold Deinflection.deinflect at h
    cases hdef : definer term with
    | error e => rw [hdef] at h; simp at h
    | ok ds =>
      rw [hdef] at h
      cases hk : ruleChildren
          (fun t r rn => Deinflection.deinflect σ definer table fuel false t r rn)
          false term rules table with
      | fuelOut => rw [hk] at h; simp at h
      | failed => rw [hk] at h; simp at h
      | ok ks =>
        rw [hk] at h
        simp only [DRes.bind_ok, DRes.ok.injEq] at h
        subst h
        intro n hn d hd2
        rw [show nodesOf ⟨term, rules, reason, validateDefs false rules ds,
              σ (⟨term, rules, "", [], []⟩ :: ks)⟩ =
            ⟨term, rules, reason, validateDefs false rules ds,
              σ (⟨term, rules, "", [], []⟩ :: ks)⟩ ::
              nodesOfList (σ (⟨term, rules, "", [], []⟩ :: ks)) from rfl] at hn
        rcases List.mem_cons.1 hn with rfl | hn2
        · have hg : d ∈ groupedByRule ds rules := by
            rw [← validateDefs_eq_grouped]
            exact hd2
          exact groupedByRule_mem ds d rules hg
        · rcases nodesOfList_mem _ n hn2 with ⟨c, hc, hnc⟩
          rw [(hσ _).mem_iff] at hc
          rcases List.mem_cons.1 hc with rfl | hcks
          · rw [show nodesOf ⟨term, rules, "", [], []⟩ =
                [⟨term, rules, "", [], []⟩] from rfl] at hnc
            rw [List.mem_singleton] at hnc
            subst hnc
            simp at hd2
          · rcases ruleChildren_mem _ false term rules table ks hk c hcks with
              ⟨t2, ru2, rn2, _, hrec⟩
            exact ih t2 ru2 rn2 c hrec n hnc d hd2

/-- Helper for C8: in every subtree explored with `entry = false` from a
non-empty term, every node carries a non-empty term (the rewrite-emptiness
check guards every child creation, and stop-children copy the parent term). -/
theorem nonentry_nodes_term (σ : Sched) (hσ : ∀ l, List.Perm (σ l) l)
    (definer : Definer) (table : RuleTable) :
    ∀ (fuel : Nat) (term : JStr) (rules : List RuleId) (reason : String)
      (t : Deinflection),
      term ≠ [] →
      Deinflection.deinflect σ definer table fuel false term rules reason = .ok t →
      ∀ n ∈ nodesOf t, n.term ≠ [] := by
  intro fuel
  induction fuel with
  | zero => intro term rules reason t hterm h; cases h
  | succ fuel ih =>
    intro term rules reason t hterm h
    unfold Deinflection.deinflect at h
    cases hdef : definer term with
    | error e => rw [hdef] at h; simp at h
    | ok ds =>
      rw [hdef] at h
      cases hk : ruleChildren
          (fun t r rn => Deinflection.deinflect σ definer table fuel false t r rn)
          false term rules table with
      | fuelOut => rw [hk] at h; simp at h
      | failed => rw [hk] at h; simp at h
      | ok ks =>
        rw [hk] at h
        simp only [DRes.bind_ok, DRes.ok.injEq] at h
        subst h
        intro n hn
        rw [show nodesOf ⟨term, rules, reason, validateDefs false rules ds,
              σ (⟨term, rules, "", [], []⟩ :: ks)⟩ =
            ⟨term, rules, reason, validateDefs false rules ds,
              σ (⟨term, rules, "", [], []⟩ :: ks)⟩ ::
              nodesOfList (σ (⟨term, rules, "", [], []⟩ :: ks)) from rfl] at hn
        rcases List.mem_cons.1 hn with rfl | hn2
        · exact hterm
        · rcases nodesOfList_mem _ n hn2 with ⟨c, hc, hnc⟩
          rw [(hσ _).mem_iff] at hc
          rcases List.mem_cons.1 hc with rfl | hcks
          · rw [show nodesOf ⟨term, rules, "", [], []⟩ =
                [⟨term, rules, "", [], []⟩] from rfl] at hnc
            rw [List.mem_singleton] at hnc
            subst hnc
            exact hterm
          · rcases ruleChildren_mem _ false term rules table ks hk c hcks with
              ⟨t2, ru2, rn2, ht2, hrec⟩
            exact ih t2 ru2 rn2 c ht2 hrec n hnc

/-- C7: the root node (built with `entry = true`) stores exactly what the
definer returned for the surface term, with no rule-tag constraint, while
every definition stored on any node strictly below the root has at least one
rule tag among that node's rules — for any completion schedule. -/
theorem deinflect_definitions_admissible (σ : Sched) (hσ : ∀ l, List.Perm (σ l) l)
    (definer : Definer) (table : RuleTable) (fuel : Nat) (term : JStr)
    (root : Deinflection) (ds : List Defn)
    (h : Deinflection.deinflect σ definer table fuel true term [] "" = .ok root)
    (hd : definer term = .ok ds) :
    root.definitions = ds ∧
    ∀ n ∈ nodesOfList root.children, ∀ d ∈ n.definitions,
      ∃ r ∈ n.rules, d.rules.contains r = true := by
  cases fuel with
  | zero => cases h
  | succ fuel =>
    unfold Deinflection.deinflect at h
    rw [hd] at h
    cases hk : ruleChildren
        (fun t r rn => Deinflection.deinflect σ definer table fuel false t r rn)
        true term [] table with
    | fuelOut => rw [hk] at h; simp at h
    | failed => rw [hk] at h; simp at h
    | ok ks =>
      rw [hk] at h
      simp only [DRes.bind_ok, DRes.ok.injEq] at h
      subst h
      refine ⟨rfl, ?_⟩
      intro n hn d hd2
      rcases nodesOfList_mem _ n hn with ⟨c, hc, hnc⟩
      rw [(hσ _).mem_iff] at hc
      rcases List.mem_cons.1 hc with rfl | hcks
      · rw [show nodesOf ⟨term, [], "", [], []⟩ =
            [⟨term, [], "", [], []⟩] from rfl] at hnc
        rw [List.mem_singleton] at hnc
        subst hnc
        simp at hd2
      · rcases ruleChildren_mem _ true term [] table ks hk c hcks with
          ⟨t2, ru2, rn2, _, hrec⟩
        exact nonentry_nodes_defs σ hσ definer table fuel t2 ru2 rn2 c hrec n hnc d hd2

/-- C7, witness: in the concrete scenario the root stores the (empty)
definer result for the surface term. -/
theorem deinflect_definitions_admissible_witness :
    (⟨tabeta, [], "", [],
      [⟨tabeta, [], "", [], []⟩,
       ⟨taberu, ["v1"], "past", [⟨["v1"]⟩], [⟨taberu, ["v1"], "", [], []⟩]⟩]⟩ :
        Deinflection).definitions = ([] : List Defn) :=
  (deinflect_definitions_admissible id (fun l => List.Perm.refl l) tabeDefiner
    pastTable 2 tabeta
    ⟨tabeta, [], "", [],
      [⟨tabeta, [], "", [], []⟩,
       ⟨taberu, ["v1"], "past", [⟨["v1"]⟩], [⟨taberu, ["v1"], "", [], []⟩]⟩]⟩
    [] rfl rfl).1

/-- C8, amended: every node created by rule expansion has a non-empty term
(the empty-rewrite check runs before the child is created), so when the
caller-supplied surface term is non-empty, every node of the finished tree,
root and stop-children included, has a term of positive length.  The code
performs no such check on the surface term itself (see the counterexample
`deinflect_empty_term_root_node`). -/
theorem deinflect_tree_terms_positive (σ : Sched) (hσ : ∀ l, List.Perm (σ l) l)
    (definer : Definer) (table : RuleTable) (fuel : Nat) (term : JStr)
    (root : Deinflection)
    (hterm : 0 < term.length)
    (h : Deinflection.deinflect σ definer table fuel true term [] "" = .ok root) :
    ∀ n ∈ nodesOf root, 0 < n.term.length := by
  have hne : term ≠ [] := by
    intro hnil
    rw [hnil] at hterm
    simp at hterm
  cases fuel with
  | zero => cases h
  | succ fuel =>
    unfold Deinflection.deinflect at h
    cases hdef : definer term with
    | error e => rw [hdef] at h; simp at h
    | ok ds =>
      rw [hdef] at h
      cases hk : ruleChildren
          (fun t r rn => Deinflection.deinflect σ definer table fuel false t r rn)
          true term [] table with
      | fuelOut => rw [hk] at h; simp at h
      | failed => rw [hk] at h; simp at h
      | ok ks =>
        rw [hk] at h
        simp only [DRes.bind_ok, DRes.ok.injEq] at h
        subst h
        intro n hn
        rw [List.length_pos]
        rw [show nodesOf ⟨term, [], "", validateDefs true [] ds,
              σ (⟨term, [], "", [], []⟩ :: ks)⟩ =
            ⟨term, [], "", validateDefs true [] ds,
              σ (⟨term, [], "", [], []⟩ :: ks)⟩ ::
              nodesOfList (σ (⟨term, [], "", [], []⟩ :: ks)) from rfl] at hn
        rcases List.mem_cons.1 hn with rfl | hn2
        · exact hne
        · rcases nodesOfList_mem _ n hn2 with ⟨c, hc, hnc⟩
          rw [(hσ _).mem_iff] at hc
          rcases List.mem_cons.1 hc with rfl | hcks
          · rw [show nodesOf ⟨term, [], "", [], []⟩ =
                [⟨term, [], "", [], []⟩] from rfl] at hnc
            rw [List.mem_singleton] at hnc
            subst hnc
            exact hne
          · rcases ruleChildren_mem _ true term [] table ks hk c hcks with
              ⟨t2, ru2, rn2, ht2, hrec⟩
            exact nonentry_nodes_term σ hσ definer table fuel t2 ru2 rn2 c ht2 hrec n hnc

/-- C8, witness for the amended theorem: the root of the concrete scenario
tree has a term of positive length. -/
theorem deinflect_tree_terms_positive_witness :
    0 < (⟨tabeta, [], "", [],
      [⟨tabeta, [], "", [], []⟩,
       ⟨taberu, ["v1"], "past", [⟨["v1"]⟩], [⟨taberu, ["v1"], "", [], []⟩]⟩]⟩ :
        Deinflection).term.length :=
  deinflect_tree_terms_positive id (fun l => List.Perm.refl l) tabeDefiner
    pastTable 2 tabeta
    ⟨tabeta, [], "", [],
      [⟨tabeta, [], "", [], []⟩,
       ⟨taberu, ["v1"], "past", [⟨["v1"]⟩], [⟨taberu, ["v1"], "", [], []⟩]⟩]⟩
    (by decide) rfl
    ⟨tabeta, [], "", [],
      [⟨tabeta, [], "", [], []⟩,
       ⟨taberu, ["v1"], "past", [⟨["v1"]⟩], [⟨taberu, ["v1"], "", [], []⟩]⟩]⟩
    (List.mem_cons_self _ _)

/-- Lift a relation to fueled results: related runs exhaust fuel together,
reject together, or complete with related values. -/
inductive DRel {α β : Type} (R : α → β → Prop) : DRes α → DRes β → Prop where
  | fuelOut : DRel R .fuelOut .fuelOut
  | failed : DRel R .failed .failed
  | ok {a : α} {b : β} : R a b → DRel R (.ok a) (.ok b)

/-- The node relation preserved across completion schedules: same number of
materialized children, and flattened outputs equal up to permutation. -/
def NR (t1 t2 : Deinflection) : Prop :=
  t1.children.length = t2.children.length ∧
    List.Perm (Deinflection.gather t1) (Deinflection.gather t2)

/-- Helper: `gather` on a node with a non-empty children list runs the
child loop. -/
theorem gather_cons (tm : JStr) (ru : List RuleId) (rn : String) (ds : List Defn) :
    ∀ (l : List Deinflection), l ≠ [] →
      Deinflection.gather ⟨tm, ru, rn, ds, l⟩ = gatherKids tm rn ds l := by
  intro l hl
  cases l with
  | nil => cases hl rfl
  | cons c cs => rfl

/-- Helper: permuting the children list permutes the gathered paths. -/
theorem gatherKids_perm_right (tm : JStr) (rn : String) (ds : List Defn)
    {l1 l2 : List Deinflection} (p : List.Perm l1 l2) :
    List.Perm (gatherKids tm rn ds l1) (gatherKids tm rn ds l2) := by
  induction p with
  | nil => exact List.Perm.refl _
  | cons x p ih =>
    exact List.Perm.append (List.Perm.refl _) ih
  | swap x y l =>
    show List.Perm (_ ++ (_ ++ _)) (_ ++ (_ ++ _))
    rw [← List.append_assoc, ← List.append_assoc]
    exact List.Perm.append List.perm_append_comm (List.Perm.refl _)
  | trans p1 p2 ih1 ih2 => exact List.Perm.trans ih1 ih2

/-- Helper: replacing each child by one that gathers to a permuted path
list permutes the gathered paths. -/
theorem gatherKids_perm_pointwise (tm : JStr) (rn : String) (ds : List Defn) :
    ∀ {l1 l2 : List Deinflection},
      List.Forall₂ (fun a b => List.Perm (Deinflection.gather a) (Deinflection.gather b)) l1 l2 →
      List.Perm (gatherKids tm rn ds l1) (gatherKids tm rn ds l2) := by
  intro l1 l2 hf
  induction hf with
  | nil => exact List.Perm.refl _
  | cons h hf ih => exact List.Perm.append (h.map _) ih

/-- Helper: the variant loop retains the same candidates (same positions,
related subtrees) whatever completion schedule the recursive calls use. -/
theorem variantChildren_congr
    {rec1 rec2 : JStr → List RuleId → String → DRes Deinflection}
    (hrec : ∀ t r rn, DRel NR (rec1 t r rn) (rec2 t r rn))
    (entry : Bool) (term : JStr) (rules : List RuleId) (reason : String) :
    ∀ vs : List Variant,
      DRel (List.Forall₂ NR)
        (variantChildren rec1 entry term rules reason vs)
        (variantChildren rec2 entry term rules reason vs) := by
  intro vs
  induction vs with
  | nil => exact DRel.ok List.Forall₂.nil
  | cons v vs ih =>
    simp only [variantChildren]
    split
    · split
      · exact ih
      · have h1 := hrec (jsSliceNeg term v.kanaIn.length ++ v.kanaOut) v.rulesOut reason
        have h2 := ih
        generalize hA : rec1 (jsSliceNeg term v.kanaIn.length ++ v.kanaOut) v.rulesOut reason = A
        rw [hA] at h1
        generalize hB : rec2 (jsSliceNeg term v.kanaIn.length ++ v.kanaOut) v.rulesOut reason = B
        rw [hB] at h1
        generalize hC : variantChildren rec1 entry term rules reason vs = C
        rw [hC] at h2
        generalize hD : variantChildren rec2 entry term rules reason vs = D
        rw [hD] at h2
        cases h1 with
        | fuelOut => exact DRel.fuelOut
        | failed => exact DRel.failed
        | ok hk =>
          cases h2 with
          | fuelOut => exact DRel.fuelOut
          | failed => exact DRel.failed
          | ok hrest =>
            simp only [DRes.bind_ok]
            rw [hk.1]
            split
            · exact DRel.ok (List.Forall₂.cons hk hrest)
            · exact DRel.ok hrest
    · exact ih

/-- Helper: the reason loop retains the same candidates (same positions,
related subtrees) whatever completion schedule the recursive calls use. -/
theorem ruleChildren_congr
    {rec1 rec2 : JStr → List RuleId → String → DRes Deinflection}
    (hrec : ∀ t r rn, DRel NR (rec1 t r rn) (rec2 t r rn))
    (entry : Bool) (term : JStr) (rules : List RuleId) :
    ∀ table : RuleTable,
      DRel (List.Forall₂ NR)
        (ruleChildren rec1 entry term rules table)
        (ruleChildren rec2 entry term rules table) := by
  intro table
  induction table with
  | nil => exact DRel.ok List.Forall₂.nil
  | cons e rest ih =>
    simp only [ruleChildren]
    have h1 := variantChildren_congr hrec entry term rules e.1 e.2
    have h2 := ih
    generalize hA : variantChildren rec1 entry term rules e.1 e.2 = A
    rw [hA] at h1
    generalize hB : variantChildren rec2 entry term rules e.1 e.2 = B
    rw [hB] at h1
    generalize hC : ruleChildren rec1 entry term rules rest = C
    rw [hC] at h2
    generalize hD : ruleChildren rec2 entry term rules rest = D
    rw [hD] at h2
    cases h1 with
    | fuelOut => exact DRel.fuelOut
    | failed => exact DRel.failed
    | ok hv =>
      cases h2 with
      | fuelOut => exact DRel.fuelOut
      | failed => exact DRel.failed
      | ok hr =>
        simp only [DRes.bind_ok]
        exact DRel.ok (List.rel_append hv hr)

/-- Helper for C3: for any permutation-valued completion schedule, the
built tree has, node for node, children lists of the same length as the
spawn-order run, and flattened outputs equal up to permutation. -/
theorem deinflect_sched_congr (σ : Sched) (hσ : ∀ l, List.Perm (σ l) l)
    (definer : Definer) (table : RuleTable) :
    ∀ (fuel : Nat) (entry : Bool) (term : JStr) (rules : List RuleId)
      (reason : String),
      DRel NR (Deinflection.deinflect σ definer table fuel entry term rules reason)
        (Deinflection.deinflect id definer table fuel entry term rules reason) := by
  intro fuel
  induction fuel with
  | zero => intro entry term rules reason; exact DRel.fuelOut
  | succ fuel ih =>
    intro entry term rules reason
    simp only [Deinflection.deinflect]
    cases hdef : definer term with
    | error e => exact DRel.failed
    | ok ds =>
      have hrec : ∀ t r rn, DRel NR
          (Deinflection.deinflect σ definer table fuel false t r rn)
          (Deinflection.deinflect id definer table fuel false t r rn) :=
        fun t r rn => ih false t r rn
      have hkk := ruleChildren_congr hrec entry term rules table
      generalize hA : ruleChildren
        (fun t r rn => Deinflection.deinflect σ definer table fuel false t r rn)
        entry term rules table = A
      rw [hA] at hkk
      generalize hB : ruleChildren
        (fun t r rn => Deinflection.deinflect id definer table fuel false t r rn)
        entry term rules table = B
      rw [hB] at hkk
      cases hkk with
      | fuelOut => exact DRel.fuelOut
      | failed => exact DRel.failed
      | ok hF =>
        rename_i ks1 ks2
        simp only [DRes.bind_ok]
        refine DRel.ok ⟨?_, ?_⟩
        · show (σ (⟨term, rules, "", [], []⟩ :: ks1)).length =
            (id (⟨term, rules, "", [], []⟩ :: ks2) : List Deinflection).length
          rw [(hσ _).length_eq, id_eq]
          simp [hF.length_eq]
        · have hne1 : σ (⟨term, rules, "", [], []⟩ :: ks1) ≠ [] := by
            have hp : 0 < (σ (⟨term, rules, "", [], []⟩ :: ks1)).length := by
              rw [(hσ _).length_eq]
              simp
            exact List.length_pos.1 hp
          show List.Perm
            (Deinflection.gather ⟨term, rules, reason, validateDefs entry rules ds,
              σ (⟨term, rules, "", [], []⟩ :: ks1)⟩)
            (Deinflection.gather ⟨term, rules, reason, validateDefs entry rules ds,
              id (⟨term, rules, "", [], []⟩ :: ks2)⟩)
          rw [id_eq, gather_cons _ _ _ _ _ hne1,
            gather_cons _ _ _ _ _ (List.cons_ne_nil _ _)]
          refine List.Perm.trans (gatherKids_perm_right _ _ _ (hσ _)) ?_
          exact gatherKids_perm_pointwise _ _ _
            (List.Forall₂.cons (List.Perm.refl _) (hF.imp (fun a b h => h.2)))

/-- C3, amended: which children are materialized at each node is uniquely
determined by the inputs — two runs differing only in the completion order
of the definer promises materialize the same children up to order and their
`deinflect` outputs are permutations of each other (they exhaust fuel
together and reject together as well); but the relative order within each
`children` array, and hence the output order, follows completion order, not
rule-table iteration order (see the counterexample). -/
theorem deinflect_output_perm (σ : Sched) (hσ : ∀ l, List.Perm (σ l) l)
    (definer : Definer) (table : RuleTable) (fuel : Nat) (term : JStr) :
    DRel List.Perm (Deinflector.deinflect σ definer table fuel term)
      (Deinflector.deinflect id definer table fuel term) := by
  have h := deinflect_sched_congr σ hσ definer table fuel true term [] ""
  unfold Deinflector.deinflect
  generalize hA : Deinflection.deinflect σ definer table fuel true term [] "" = A
  rw [hA] at h
  generalize hB : Deinflection.deinflect id definer table fuel true term [] "" = B
  rw [hB] at h
  cases h with
  | fuelOut => exact DRel.fuelOut
  | failed => exact DRel.failed
  | ok hnr =>
    simp only [DRes.bind_ok]
    rw [hnr.1]
    split
    · exact DRel.ok hnr.2
    · exact DRel.ok (List.Perm.refl _)

/-- C3, witness for the amended theorem: the reversed-completion-order run
of the concrete scenario yields a permutation of the spawn-order output. -/
theorem deinflect_output_perm_witness :
    DRel List.Perm (Deinflector.deinflect List.reverse tabeDefiner pastTable 2 tabeta)
      (Deinflector.deinflect id tabeDefiner pastTable 2 tabeta) :=
  deinflect_output_perm List.reverse (fun l => List.reverse_perm l) tabeDefiner
    pastTable 2 tabeta
